import Mathlib

set_option maxRecDepth 40000

/-!
Shallow embedding of the P11_CM OFDM/LTE physical-layer core
(src/core/ts36212_channel_coding.py, src/core/ofdm_ops.py,
src/core/utils.py, src/core/channel.py).

Bit arrays are `List ℕ` with entries 0/1.  Machine integers are `ℕ` with
explicit masking where the source masks.  Complex floating-point samples
are embedded as exact pairs (re, im) over `ℚ` where the operations are
rational, and over `ℝ` where a square root occurs.  Library routines that
are not part of the repository (numpy's FFT and its global random number
generator) enter as explicit function parameters or explicit state.
-/

/-! ## CRC attachment and check (ts36212_channel_coding.py, lines 34-105) -/

/-- The four CRC variants of TS 36.212 supported by the source
( `CRCName = Literal["24A", "24B", "16", "8"]` ). -/
inductive CRCName where
  | c24A
  | c24B
  | c16
  | c8
deriving DecidableEq

/-- `_poly_to_int`: polynomial (excluding top term) as an int bitmask. -/
def polyToInt (degrees : List ℕ) : ℕ :=
  degrees.foldl (fun out d => out ||| (1 <<< d)) 0

/-- `_CRC_POLYS`: degree `L` and generator bitmask for each CRC name. -/
def crcParams : CRCName → ℕ × ℕ
  | .c24A => (24, polyToInt [23, 18, 17, 14, 11, 10, 7, 6, 5, 4, 3, 1, 0])
  | .c24B => (24, polyToInt [23, 6, 5, 1, 0])
  | .c16 => (16, polyToInt [12, 5, 0])
  | .c8 => (8, polyToInt [7, 4, 3, 1, 0])

/-- One iteration of the CRC shift register on input bit `b`
(the loop body shared by `crc_attach` and `crc_check`). -/
def crcStep (L poly reg b : ℕ) : ℕ :=
  let mask := (1 <<< L) - 1
  let msb := (reg >>> (L - 1)) &&& 1
  let fb := msb ^^^ b
  let reg2 := (reg <<< 1) &&& mask
  if fb ≠ 0 then reg2 ^^^ poly else reg2

/-- Run the CRC register over a bit list from initial register `reg`. -/
def crcRun (c : CRCName) (reg : ℕ) (bits : List ℕ) : ℕ :=
  bits.foldl (crcStep (crcParams c).1 (crcParams c).2) reg

/-- `crc_attach(bits, crc)`: process the message bits, then `L` zero bits,
and append the final register value MSB-first as parity. -/
def crc_attach (bits : List ℕ) (c : CRCName) : List ℕ :=
  let L := (crcParams c).1
  let r1 := crcRun c 0 bits
  let r2 := crcRun c r1 (List.replicate L 0)
  bits ++ (List.range L).map (fun i => (r2 >>> (L - 1 - i)) &&& 1)

/-- `crc_check(bits_with_crc, crc)`: `(payload, ok)`; inputs shorter than `L`
yield `ok = false`, otherwise `ok` is `reg == 0` after the full run. -/
def crc_check (bits : List ℕ) (c : CRCName) : List ℕ × Bool :=
  let L := (crcParams c).1
  if bits.length < L then (bits, false)
  else (bits.take (bits.length - L), crcRun c 0 bits == 0)

/-! ## Scrambler (utils.py, lines 96-114)

`apply_scrambling` calls numpy's globally seeded generator.  The generator
is not repository code: it enters as the parameter `rng`, mapping a seed
and a requested length to the pseudo-random 0/1 mask
(`np.random.randint(0, 2, len(bits))` after `np.random.seed(seed)`). -/

/-- `np.bitwise_xor(bits, scrambling_sequence)` (element-wise). -/
def xorMask (bits seq : List ℕ) : List ℕ :=
  List.zipWith (fun b s => b ^^^ s) bits seq

/-- `apply_scrambling(bits, seed)` as a pure function of the seeded
generator output. -/
def apply_scrambling (rng : ℕ → ℕ → List ℕ) (bits : List ℕ) (seed : ℕ) : List ℕ :=
  xorMask bits (rng seed bits.length)

/-- `apply_scrambling` with the ambient global generator state made
explicit.  `ambient` is `np.random.get_state()`; `seedFn seed` is the
state created by `np.random.seed(seed)`; `draw st n` returns the mask of
length `n` together with the advanced state.  The second component of the
result is the global generator state after the call returns
(`finally: np.random.set_state(state)`). -/
def applyScramblingStateful {S : Type} (seedFn : ℕ → S) (draw : S → ℕ → List ℕ × S)
    (ambient : S) (bits : List ℕ) (seed : ℕ) : List ℕ × S :=
  let saved := ambient
  let seeded := seedFn seed
  let seq := (draw seeded bits.length).1
  (xorMask bits seq, saved)

/-! ## Convolutional encoder (ts36212_channel_coding.py, lines 108-195) -/

/-- `ConvCodeConfig.constraint_len = 7`. -/
def convConstraintLen : ℕ := 7

/-- `ConvCodeConfig.memory = constraint_len - 1`. -/
def convMemory : ℕ := convConstraintLen - 1

/-- `ConvCodeConfig.n_states = 1 << memory`. -/
def nStates : ℕ := 1 <<< convMemory

/-- The generators 133, 171, 165 (octal) masked to 7 bits
(`ConvCodeConfig.generators`). -/
def convGens : List ℕ :=
  [0o133 &&& ((1 <<< convConstraintLen) - 1),
   0o171 &&& ((1 <<< convConstraintLen) - 1),
   0o165 &&& ((1 <<< convConstraintLen) - 1)]

/-- Fuel-indexed helper for the parity of a binary representation. -/
def parityAux : ℕ → ℕ → ℕ
  | 0, _ => 0
  | fuel + 1, n => if n = 0 then 0 else (n % 2 + parityAux fuel (n / 2)) % 2

/-- `v.bit_count() & 1`: parity of the set bits of `v`. -/
def bitParity (n : ℕ) : ℕ := parityAux n n

/-- Output bit `j` of the encoder register `[u, s0..s5]` for the
`j`-th generator: `(reg & g).bit_count() & 1`. -/
def outBit (state u j : ℕ) : ℕ :=
  bitParity (((u <<< convMemory) ||| state) &&& (convGens.getD j 0))

/-- The three coded bits emitted for input `u` in state `state`. -/
def convOutBits (state u : ℕ) : List ℕ :=
  convGens.map (fun g => bitParity (((u <<< convMemory) ||| state) &&& g))

/-- State update: `((u << (m-1)) | (state >> 1)) & ((1 << m) - 1)`. -/
def convNextState (state u : ℕ) : ℕ :=
  ((u <<< (convMemory - 1)) ||| (state >>> 1)) &&& ((1 <<< convMemory) - 1)

/-- The encoder loop from a given starting state. -/
def convEncodeFrom (state : ℕ) : List ℕ → List ℕ
  | [] => []
  | b :: bs => convOutBits state b ++ convEncodeFrom (convNextState state b) bs

/-- The seeding loop `for i, b in enumerate(last): state |= b << (m-1-i)`. -/
def seedStateLoop : ℕ → ℕ → List ℕ → ℕ
  | _, st, [] => st
  | i, st, b :: rest => seedStateLoop (i + 1) (st ||| (b <<< (convMemory - 1 - i))) rest

/-- Initial state selection of `conv_encode`: if `tail_biting` and the
input has at least `m` bits the state is built from `bits[-m:]`,
otherwise it is zero. -/
def convInitState (tail_biting : Bool) (bits : List ℕ) : ℕ :=
  if tail_biting = true ∧ convMemory ≤ bits.length then
    seedStateLoop 0 0 (bits.drop (bits.length - convMemory))
  else 0

/-- `conv_encode(bits, terminate, tail_biting)`: rate-1/3 encoder;
appends `m` zero flush bits exactly when `terminate and not tail_biting`. -/
def conv_encode (bits : List ℕ) (terminate tail_biting : Bool) : List ℕ :=
  let st := convInitState tail_biting bits
  let inBits :=
    if terminate = true ∧ tail_biting = false then bits ++ List.replicate convMemory 0
    else bits
  convEncodeFrom st inBits

/-! ## Viterbi decoder (ts36212_channel_coding.py, lines 198-287) -/

/-- `INF` path metric used to bar the nonzero initial states. -/
def INF : ℕ := 1000000000

/-- `u_for_state = (s >> (m-1)) & 1`: the input bit that leads into `s`. -/
def uForState (s : ℕ) : ℕ := (s >>> (convMemory - 1)) &&& 1

/-- `p0 = (s & 31) << 1`: predecessor of `s` with even index. -/
def pred0 (s : ℕ) : ℕ := (s &&& ((1 <<< (convMemory - 1)) - 1)) <<< 1

/-- `p1 = p0 | 1`: predecessor of `s` with odd index. -/
def pred1 (s : ℕ) : ℕ := pred0 s ||| 1

/-- Expected branch output for predecessor `p` and input `u`. -/
def outTriple (p u : ℕ) : ℕ × ℕ × ℕ := (outBit p u 0, outBit p u 1, outBit p u 2)

/-- Hamming distance between the expected branch output of `(p, u)` and a
received triple `y`. -/
def branchDist (p u : ℕ) (y : ℕ × ℕ × ℕ) : ℕ :=
  (outBit p u 0 ^^^ y.1) + (outBit p u 1 ^^^ y.2.1) + (outBit p u 2 ^^^ y.2.2)

/-- Truncation of the coded stream to a whole number of 3-bit steps
(`coded_bits[: size - size % 3]` grouped). -/
def triples : List ℕ → List (ℕ × ℕ × ℕ)
  | a :: b :: c :: rest => (a, b, c) :: triples rest
  | _ => []

/-- One step of the Viterbi recursion: new metric table and recorded
predecessor table, with ties broken toward `p0` (`take1 = cand1 < cand0`). -/
def viterbiStep (M : ℕ → ℕ) (y : ℕ × ℕ × ℕ) : (ℕ → ℕ) × (ℕ → ℕ) :=
  (fun s =>
      let cand0 := M (pred0 s) + branchDist (pred0 s) (uForState s) y
      let cand1 := M (pred1 s) + branchDist (pred1 s) (uForState s) y
      if cand1 < cand0 then cand1 else cand0,
   fun s =>
      let cand0 := M (pred0 s) + branchDist (pred0 s) (uForState s) y
      let cand1 := M (pred1 s) + branchDist (pred1 s) (uForState s) y
      if cand1 < cand0 then pred1 s else pred0 s)

/-- The forward Viterbi recursion: final metrics and the per-step
predecessor tables in step order. -/
def viterbiForward (M : ℕ → ℕ) : List (ℕ × ℕ × ℕ) → (ℕ → ℕ) × List (ℕ → ℕ)
  | [] => (M, [])
  | y :: ys =>
      let MP := viterbiStep M y
      let rest := viterbiForward MP.1 ys
      (rest.1, MP.2 :: rest.2)

/-- Traceback: the argument list is the predecessor tables in reverse step
order; decoded bits come out in step order (`u_hat[t]` is the MSB of the
state reached after step `t`). -/
def tracebackAux : ℕ → List (ℕ → ℕ) → List ℕ
  | _, [] => []
  | state, p :: rest => tracebackAux (p state) rest ++ [uForState state]

/-- `metrics = np.full(n_states, INF); metrics[0] = 0`: the initial path
metrics (the decoder assumes the encoder started in state 0). -/
def viterbiInitMetrics : ℕ → ℕ := fun s => if s = 0 then 0 else INF

/-- `conv_decode_terminated(coded_bits, drop_tail)`: hard-decision Viterbi
for the terminated code; traceback starts at state 0 (`u_hat` is the
traceback output); when `drop_tail` and at least `m` steps were decoded
the last `m` bits (`u_hat[:-m]`) are discarded. -/
def conv_decode_terminated (coded : List ℕ) (drop_tail : Bool) : List ℕ :=
  if drop_tail = true ∧ convMemory ≤ (triples coded).length then
    (tracebackAux 0 (viterbiForward viterbiInitMetrics (triples coded)).2.reverse).take
      ((tracebackAux 0 (viterbiForward viterbiInitMetrics (triples coded)).2.reverse).length
        - convMemory)
  else tracebackAux 0 (viterbiForward viterbiInitMetrics (triples coded)).2.reverse

/-! ## Cyclic-prefix insertion and removal (ofdm_ops.py, lines 37-63)

These are element-type-generic slicing operations, so they are embedded
over an arbitrary sample type `α`. -/

/-- Python's `block[-k:]` slice: the whole list when `k = 0` (Python's
`-0` is `0`), otherwise the last `k` elements (clamped). -/
def pyLastSlice {α : Type} (k : ℕ) (l : List α) : List α :=
  if k = 0 then l else l.drop (l.length - k)

/-- `int(n_fft * cp_ratio)`: truncation of a nonnegative float, i.e. the
floor of the exact product. -/
def cpLenOf (n_fft : ℕ) (cp_ratio : ℚ) : ℕ :=
  (⌊(n_fft : ℚ) * cp_ratio⌋).toNat

/-- The per-block loop of `add_cyclic_prefix`: for each of the
`num_blocks` blocks of `n_fft` samples, emit `block[-cp_len:]` then the
block itself. -/
def addCPBlocks {α : Type} : List α → ℕ → ℕ → ℕ → List α
  | _, 0, _, _ => []
  | signal, nb + 1, n_fft, cp_len =>
      let block := signal.take n_fft
      (pyLastSlice cp_len block ++ block) ++ addCPBlocks (signal.drop n_fft) nb n_fft cp_len

/-- `add_cyclic_prefix(signal, num_blocks, n_fft, cp_ratio)`:
returns `(signal_with_cp, cp_len)`. -/
def addCyclicPrefix {α : Type} (signal : List α) (num_blocks n_fft : ℕ) (cp_ratio : ℚ) :
    List α × ℕ :=
  let cp_len := cpLenOf n_fft cp_ratio
  (addCPBlocks signal num_blocks n_fft cp_len, cp_len)

/-- The per-block loop of `remove_cyclic_prefix`: drop the first `cp_len`
samples of each block of `block_len` samples. -/
def removeCPBlocks {α : Type} : List α → ℕ → ℕ → ℕ → List α
  | _, 0, _, _ => []
  | rx, nb + 1, block_len, cp_len =>
      ((rx.take block_len).drop cp_len) ++ removeCPBlocks (rx.drop block_len) nb block_len cp_len

/-- `remove_cyclic_prefix(rx_signal, n_fft, cp_len)`: the number of blocks
is `len(rx_signal) // (n_fft + cp_len)`; any trailing partial block is
dropped. -/
def removeCyclicPrefix {α : Type} (rx : List α) (n_fft cp_len : ℕ) : List α :=
  removeCPBlocks rx (rx.length / (n_fft + cp_len)) (n_fft + cp_len) cp_len

/-! ## Zero-forcing equalizer (ofdm_ops.py, lines 80-105)

Complex floating-point samples are embedded as exact pairs `(re, im)`
over `ℚ`.  numpy's FFT is not repository code: it enters as the parameter
`fft`, a length-preserving transform; `np.fft.fft(h, n_fft)` first crops
or zero-pads `h` to length `n_fft` (`padTrunc`). -/

/-- A complex sample: real and imaginary part. -/
abbrev Cplx : Type := ℚ × ℚ

/-- Complex division `x / y` via the conjugate formula. -/
def cdiv (x y : Cplx) : Cplx :=
  let d := y.1 * y.1 + y.2 * y.2
  ((x.1 * y.1 + x.2 * y.2) / d, (x.2 * y.1 - x.1 * y.2) / d)

/-- The clamping floor `1e-10` of the equalizer. -/
def eqFloor : ℚ := 1 / 10000000000

/-- `H_data[np.abs(H_data) < threshold] = threshold`: replace an entry of
magnitude below `1e-10` by the (real) value `1e-10`.  The magnitude
comparison `|z| < t` is expressed squared, which is exact over `ℚ`. -/
def clampSmall (z : Cplx) : Cplx :=
  if z.1 * z.1 + z.2 * z.2 < eqFloor * eqFloor then (eqFloor, 0) else z

/-- Crop or zero-pad to length `n` (the `n` argument of `np.fft.fft`). -/
def padTrunc (l : List Cplx) (n : ℕ) : List Cplx :=
  l.take n ++ List.replicate (n - l.length) ((0 : ℚ), (0 : ℚ))

/-- `np.tile(l, k)`: `k` concatenated copies of `l`. -/
def tileList {α : Type} : ℕ → List α → List α
  | 0, _ => []
  | k + 1, l => l ++ tileList k l

/-- `equalize_channel(rx_freq_symbols, h_impulse_response, n_fft, nc)`:
frequency response of `h` on the data subcarriers `1..nc`, clamped at
`1e-10`, then element-wise division with the divisor tiled across blocks
(`np.tile(H_data, len // nc + 1)[: len]`). -/
def equalize_channel (fft : List Cplx → List Cplx) (rx h : List Cplx) (n_fft nc : ℕ) :
    List Cplx :=
  let Hfreq := fft (padTrunc h n_fft)
  let Hdata := (Hfreq.drop 1).take nc
  let Hcl := Hdata.map clampSmall
  let tiled := (tileList (rx.length / nc + 1) Hcl).take rx.length
  List.zipWith cdiv rx tiled

/-! ## Multipath impulse response (channel.py, lines 22-58)

Only the impulse response `h` is embedded (the claim under study concerns
`h`; the additive noise draw is a fresh random sample).  The taps of the
source are real, so `h` is a list of reals; the energy normalization
divides by a square root, hence the embedding over `ℝ`. -/

/-- The fixed pre-normalization tap profile
`base_h = [1.0, 0.1, 0.1, 0.1, 0.1, 0.1, 0.1, 0.1, 0.5, 0.5]`. -/
def rayleighBaseTaps : List ℚ :=
  [1, 1/10, 1/10, 1/10, 1/10, 1/10, 1/10, 1/10, 1/2, 1/2]

/-- `base_h[:num_taps]` when `num_taps <= 10`, otherwise
`np.pad(base_h, (0, num_taps - 10))`. -/
def rayleighBase (num_taps : ℕ) : List ℚ :=
  if num_taps ≤ rayleighBaseTaps.length then rayleighBaseTaps.take num_taps
  else rayleighBaseTaps ++ List.replicate (num_taps - rayleighBaseTaps.length) 0

/-- Sum of squared magnitudes of a real-tap list. -/
def sumSq (l : List ℝ) : ℝ := (l.map (fun x => x ^ 2)).sum

/-- The impulse response `h` built by `apply_rayleigh`: `[1]` for a single
tap, otherwise the fixed profile truncated/padded to `num_taps` and
normalized by the square root of its energy
(`h = h / np.sqrt(np.sum(np.abs(h)**2))`). -/
noncomputable def applyRayleighH (num_taps : ℕ) : List ℝ :=
  if num_taps = 1 then [1]
  else
    ((rayleighBase num_taps).map (fun q : ℚ => (q : ℝ))).map
      (fun x => x / Real.sqrt (sumSq ((rayleighBase num_taps).map (fun q : ℚ => (q : ℝ)))))

/-- The encoder's output viewed as one 3-bit triple per step (the shape in
which the decoder consumes it): `encTriples s bs = triples (convEncodeFrom s bs)`. -/
def encTriples : ℕ → List ℕ → List (ℕ × ℕ × ℕ)
  | _, [] => []
  | s, b :: bs => outTriple s b :: encTriples (convNextState s b) bs

/-! ## Theorems -/

theorem xorMask_xorMask : ∀ (l m : List ℕ), l.length ≤ m.length →
    xorMask (xorMask l m) m = l := by
  intro l
  induction l with
  | nil => intro m _; rfl
  | cons b bs ih =>
      intro m hm
      cases m with
      | nil => simp at hm
      | cons s ms =>
          simp only [xorMask, List.zipWith_cons_cons]
          have h1 : bs.length ≤ ms.length := by
            simpa [Nat.succ_le_succ_iff] using hm
          have h2 := ih ms h1
          simp only [xorMask] at h2
          rw [h2, Nat.xor_cancel_right]

/-- Claim C4: for every bit array and seed, `apply_scrambling` is an
involution: scrambling twice with the same seed recovers the input.  The
seeded generator `rng` is arbitrary; the source guarantees only that the
drawn mask has the length of the input (`np.random.randint(0, 2, len(bits))`). -/
theorem apply_scrambling_involution (rng : ℕ → ℕ → List ℕ) (bits : List ℕ) (seed : ℕ)
    (hlen : (rng seed bits.length).length = bits.length) :
    apply_scrambling rng (apply_scrambling rng bits seed) seed = bits := by
  unfold apply_scrambling
  have h1 : (xorMask bits (rng seed bits.length)).length = bits.length := by
    unfold xorMask
    rw [List.length_zipWith, hlen, Nat.min_self]
  rw [h1]
  exact xorMask_xorMask bits (rng seed bits.length) (le_of_eq hlen.symm)

/-- Witness for C4 at a concrete generator, bit list and seed. -/
theorem apply_scrambling_involution_witness :
    ((fun (_ n : ℕ) => List.replicate n 1) 5 ([0, 1, 1] : List ℕ).length).length
        = ([0, 1, 1] : List ℕ).length ∧
    apply_scrambling (fun _ n => List.replicate n 1)
      (apply_scrambling (fun _ n => List.replicate n 1) [0, 1, 1] 5) 5 = [0, 1, 1] :=
  ⟨by decide, apply_scrambling_involution (fun _ n => List.replicate n 1) [0, 1, 1] 5 (by decide)⟩

/-- Claim C10: `apply_scrambling` restores the ambient global
random-number-generator state: the state after the call is exactly the
state before it, any later draw (e.g. the channel model's noise) is
unaffected, and the returned bits are the pure scrambling function of the
seeded draw. -/
theorem apply_scrambling_preserves_rng_state {S : Type} (seedFn : ℕ → S)
    (draw : S → ℕ → List ℕ × S) (ambient : S) (bits : List ℕ) (seed : ℕ) :
    (applyScramblingStateful seedFn draw ambient bits seed).2 = ambient ∧
    (∀ n, draw (applyScramblingStateful seedFn draw ambient bits seed).2 n = draw ambient n) ∧
    (applyScramblingStateful seedFn draw ambient bits seed).1 =
      apply_scrambling (fun sd n => (draw (seedFn sd) n).1) bits seed :=
  ⟨rfl, fun _ => rfl, rfl⟩

/-- Claim C2 (code bug): the CRC round trip fails on the code as written.
`crc_check (crc_attach b c) c` returns the payload `b` but `ok = false`
already for `b = [1]`, both for CRC8 and CRC24A: `crc_attach` flushes `L`
extra zero bits although its register variant (input XORed into the
feedback tap) already accounts for the `x^L` factor, so the appended
parity is `B(x) * x^{2L} mod g` while the check computes
`(B(x) * x^L + parity) * x^L mod g ≠ 0`. -/
theorem crc_attach_check_fails_on_one :
    crc_check (crc_attach [1] CRCName.c8) CRCName.c8 = ([1], false) ∧
    crc_check (crc_attach [1] CRCName.c24A) CRCName.c24A = ([1], false) := by
  constructor
  · decide
  · decide

/-- Claim C8: `crc_check` returns `ok = false` whenever the input is
shorter than the CRC degree `L`; for inputs of length at least `L` the
flag is true exactly when the final shift-register value over the whole
input is zero. -/
theorem crc_check_semantics (bits : List ℕ) (c : CRCName) :
    (bits.length < (crcParams c).1 → (crc_check bits c).2 = false) ∧
    ((crcParams c).1 ≤ bits.length →
      ((crc_check bits c).2 = true ↔ crcRun c 0 bits = 0)) := by
  constructor
  · intro h
    simp [crc_check, h]
  · intro h
    simp [crc_check, Nat.not_lt.mpr h]

/-- Witness for C8: a short input is rejected; a long input's flag matches
the final register value. -/
theorem crc_check_semantics_witness :
    (crc_check [0, 0, 0] CRCName.c8).2 = false ∧
    ((crc_check (List.replicate 9 1) CRCName.c8).2 = true ↔
      crcRun CRCName.c8 0 (List.replicate 9 1) = 0) :=
  ⟨(crc_check_semantics [0, 0, 0] CRCName.c8).1 (by decide),
   (crc_check_semantics (List.replicate 9 1) CRCName.c8).2 (by decide)⟩

theorem convOutBits_length (state u : ℕ) : (convOutBits state u).length = 3 := by
  simp [convOutBits, convGens]

theorem convEncodeFrom_length : ∀ (bs : List ℕ) (s : ℕ),
    (convEncodeFrom s bs).length = 3 * bs.length := by
  intro bs
  induction bs with
  | nil => intro s; rfl
  | cons b rest ih =>
      intro s
      simp only [convEncodeFrom, List.length_append, convOutBits_length, ih, List.length_cons]
      omega

/-- Claim C5, counterexample: with `terminate = true` and
`tail_biting = true` the encoder appends no flush bits, so the output of
a 1-bit input has length 3, not `3 * (1 + 6)`. -/
theorem conv_encode_length_counterexample :
    (conv_encode [0] true true).length ≠ 3 * (([0] : List ℕ).length + convMemory) := by
  decide

/-- Claim C5 (amended): the output length of `conv_encode` is
`3 * (len + m)` exactly when `terminate` is true and `tail_biting` is
false, and `3 * len` in every other case (in particular when both flags
are true). -/
theorem conv_encode_length (bits : List ℕ) (terminate tail_biting : Bool) :
    (conv_encode bits terminate tail_biting).length =
      if terminate = true ∧ tail_biting = false then 3 * (bits.length + convMemory)
      else 3 * bits.length := by
  unfold conv_encode
  by_cases h : terminate = true ∧ tail_biting = false
  · simp only [h, if_pos, convEncodeFrom_length, List.length_append, List.length_replicate]
    simp [h]
  · simp [h, convEncodeFrom_length]

/-- Claim C6 (code bug): with `tail_biting = true` and input
`[0,0,0,0,0,1]` the code computes initial state 1 — the last input bit
lands in the LSB, not the MSB.  The claim (and the source's own comment
"MSB is last bit") would require state 32, i.e. bit 5 set. -/
theorem convInitState_tailbiting_reversed :
    convInitState true [0, 0, 0, 0, 0, 1] = 1 ∧
    Nat.testBit (convInitState true [0, 0, 0, 0, 0, 1]) 5 = false := by
  constructor
  · decide
  · decide

theorem addCyclicPrefix_fst {α : Type} (signal : List α) (nb n_fft : ℕ) (r : ℚ) :
    (addCyclicPrefix signal nb n_fft r).1 = addCPBlocks signal nb n_fft (cpLenOf n_fft r) :=
  rfl

theorem addCyclicPrefix_snd {α : Type} (signal : List α) (nb n_fft : ℕ) (r : ℚ) :
    (addCyclicPrefix signal nb n_fft r).2 = cpLenOf n_fft r :=
  rfl

theorem pyLastSlice_length {α : Type} (k : ℕ) (l : List α) (h1 : 1 ≤ k) (h2 : k ≤ l.length) :
    (pyLastSlice k l).length = k := by
  unfold pyLastSlice
  rw [if_neg (by omega), List.length_drop]
  omega

theorem addCPBlocks_length {α : Type} (n_fft cp : ℕ) (h1 : 1 ≤ cp) (h2 : cp ≤ n_fft) :
    ∀ (nb : ℕ) (signal : List α), signal.length = nb * n_fft →
      (addCPBlocks signal nb n_fft cp).length = nb * (n_fft + cp) := by
  intro nb
  induction nb with
  | zero => intro signal _; simp [addCPBlocks]
  | succ k ih =>
      intro signal h
      have hsig : signal.length = k * n_fft + n_fft := by rw [h, Nat.succ_mul]
      have htake : (signal.take n_fft).length = n_fft := by
        rw [List.length_take]
        omega
      have hcpl : (pyLastSlice cp (signal.take n_fft)).length = cp := by
        apply pyLastSlice_length _ _ h1
        rw [htake]
        exact h2
      have hdrop : (signal.drop n_fft).length = k * n_fft := by
        rw [List.length_drop]
        omega
      simp only [addCPBlocks, List.length_append, htake, hcpl, ih _ hdrop]
      ring

theorem addRemoveCPBlocks {α : Type} (n_fft cp : ℕ) (h1 : 1 ≤ cp) (h2 : cp ≤ n_fft) :
    ∀ (nb : ℕ) (signal : List α), signal.length = nb * n_fft →
      removeCPBlocks (addCPBlocks signal nb n_fft cp) nb (n_fft + cp) cp = signal := by
  intro nb
  induction nb with
  | zero =>
      intro signal h
      have : signal = [] := by
        apply List.eq_nil_of_length_eq_zero
        simpa using h
      rw [this]
      rfl
  | succ k ih =>
      intro signal h
      have hsig : signal.length = k * n_fft + n_fft := by rw [h, Nat.succ_mul]
      have htake : (signal.take n_fft).length = n_fft := by
        rw [List.length_take]
        omega
      have hcpl : (pyLastSlice cp (signal.take n_fft)).length = cp := by
        apply pyLastSlice_length _ _ h1
        rw [htake]
        exact h2
      have hdrop : (signal.drop n_fft).length = k * n_fft := by
        rw [List.length_drop]
        omega
      have hchunk : (pyLastSlice cp (signal.take n_fft) ++ signal.take n_fft).length
          = n_fft + cp := by
        rw [List.length_append, htake, hcpl]
        omega
      simp only [addCPBlocks, removeCPBlocks]
      rw [List.take_left' hchunk, List.drop_left' hchunk, List.drop_left' hcpl, ih _ hdrop,
        List.take_append_drop]

/-- Claim C3, counterexample: with `n_fft = 2` and `cp_ratio = 1/4 ∈ (0,1)`
the computed `cp_len` is 0; Python's `block[-0:]` slice then copies the
whole block, so insertion duplicates each block and removal (which drops
nothing) does not invert it. -/
theorem cp_roundtrip_counterexample :
    (0 : ℚ) < 1/4 ∧ (1/4 : ℚ) < 1 ∧
    removeCyclicPrefix (addCyclicPrefix ([0, 1] : List ℕ) 1 2 (1/4)).1 2
      (addCyclicPrefix ([0, 1] : List ℕ) 1 2 (1/4)).2 ≠ [0, 1] := by
  have hcp : cpLenOf 2 (1/4) = 0 := by
    unfold cpLenOf
    norm_num
  refine ⟨by norm_num, by norm_num, ?_⟩
  rw [addCyclicPrefix_fst, addCyclicPrefix_snd, hcp]
  decide

/-- Claim C3 (amended): for a signal of length `num_blocks * n_fft` and a
ratio `cp_ratio < 1` whose cyclic prefix `cp_len = ⌊n_fft * cp_ratio⌋` is
at least one sample (this excludes the degenerate `cp_len = 0` corner,
where the Python `[-0:]` slice makes insertion duplicate whole blocks),
`cp_len < n_fft` and removing the prefix exactly inverts adding it. -/
theorem cp_add_remove_roundtrip {α : Type} (signal : List α) (num_blocks n_fft : ℕ)
    (cp_ratio : ℚ) (hlen : signal.length = num_blocks * n_fft)
    (hr1 : 1 ≤ (n_fft : ℚ) * cp_ratio) (hr2 : cp_ratio < 1) :
    (addCyclicPrefix signal num_blocks n_fft cp_ratio).2 < n_fft ∧
    removeCyclicPrefix (addCyclicPrefix signal num_blocks n_fft cp_ratio).1 n_fft
      (addCyclicPrefix signal num_blocks n_fft cp_ratio).2 = signal := by
  have hnpos : 0 < n_fft := by
    by_contra hn
    have h0 : n_fft = 0 := by omega
    rw [h0] at hr1
    push_cast at hr1
    norm_num at hr1
  have hfl : (1 : ℤ) ≤ ⌊(n_fft : ℚ) * cp_ratio⌋ := by
    rw [Int.le_floor]
    exact_mod_cast hr1
  have hflt : ⌊(n_fft : ℚ) * cp_ratio⌋ < (n_fft : ℤ) := by
    apply Int.floor_lt.mpr
    push_cast
    calc (n_fft : ℚ) * cp_ratio < (n_fft : ℚ) * 1 := by
          apply mul_lt_mul_of_pos_left hr2
          exact_mod_cast hnpos
      _ = (n_fft : ℚ) := mul_one _
  have h1 : 1 ≤ cpLenOf n_fft cp_ratio := by
    unfold cpLenOf
    omega
  have h2 : cpLenOf n_fft cp_ratio < n_fft := by
    unfold cpLenOf
    omega
  rw [addCyclicPrefix_fst, addCyclicPrefix_snd]
  refine ⟨h2, ?_⟩
  unfold removeCyclicPrefix
  have hblocks : (addCPBlocks signal num_blocks n_fft (cpLenOf n_fft cp_ratio)).length
      = num_blocks * (n_fft + cpLenOf n_fft cp_ratio) :=
    addCPBlocks_length n_fft _ h1 (le_of_lt h2) num_blocks signal hlen
  rw [hblocks, Nat.mul_div_cancel _ (by omega)]
  exact addRemoveCPBlocks n_fft _ h1 (le_of_lt h2) num_blocks signal hlen

/-- Witness for the amended C3 at a concrete two-block signal. -/
theorem cp_add_remove_roundtrip_witness :
    (([0, 1, 2, 3, 4, 5, 6, 7] : List ℕ).length = 2 * 4) ∧ (1 ≤ (4 : ℚ) * (1/2)) ∧
    ((1/2 : ℚ) < 1) ∧
    ((addCyclicPrefix ([0, 1, 2, 3, 4, 5, 6, 7] : List ℕ) 2 4 (1/2)).2 < 4 ∧
      removeCyclicPrefix (addCyclicPrefix ([0, 1, 2, 3, 4, 5, 6, 7] : List ℕ) 2 4 (1/2)).1 4
        (addCyclicPrefix ([0, 1, 2, 3, 4, 5, 6, 7] : List ℕ) 2 4 (1/2)).2
        = [0, 1, 2, 3, 4, 5, 6, 7]) :=
  ⟨by decide, by norm_num, by norm_num,
   cp_add_remove_roundtrip [0, 1, 2, 3, 4, 5, 6, 7] 2 4 (1/2) (by decide) (by norm_num)
     (by norm_num)⟩

theorem padTrunc_length (l : List Cplx) (n : ℕ) : (padTrunc l n).length = n := by
  unfold padTrunc
  rw [List.length_append, List.length_take, List.length_replicate]
  omega

theorem tileList_length {α : Type} : ∀ (k : ℕ) (l : List α),
    (tileList k l).length = k * l.length := by
  intro k
  induction k with
  | zero => intro l; simp [tileList]
  | succ n ih =>
      intro l
      simp only [tileList, List.length_append, ih]
      rw [Nat.succ_mul, Nat.add_comm]

theorem tileList_getElem {α : Type} : ∀ (k : ℕ) (l : List α) (i : ℕ)
    (h : i < (tileList k l).length) (h2 : i % l.length < l.length),
    (tileList k l)[i] = l[i % l.length] := by
  intro k
  induction k with
  | zero =>
      intro l i h h2
      simp [tileList] at h
  | succ n ih =>
      intro l i h h2
      simp only [tileList]
      by_cases hi : i < l.length
      · have hm : i % l.length = i := Nat.mod_eq_of_lt hi
        rw [List.getElem_append_left hi]
        simp only [hm]
      · push_neg at hi
        have hlt : i - l.length < (tileList n l).length := by
          have := tileList_length (n + 1) l
          simp only [tileList, List.length_append] at h
          omega
        have hsub : (i - l.length) % l.length = i % l.length := by
          conv_rhs => rw [show i = (i - l.length) + l.length by omega]
          rw [Nat.add_mod_right]
        rw [List.getElem_append_right hi, ih l (i - l.length) hlt (by omega)]
        simp only [hsub]

/-- Claim C7: `equalize_channel` computes the frequency response of `h`
cropped/zero-padded to `n_fft`, keeps the entries at indices `1..nc`,
clamps every entry of magnitude below `1e-10` to `1e-10` (a total
operation — no error is ever raised), and divides the `i`-th received
symbol by the clamped response at subcarrier `i % nc`, reusing the same
per-subcarrier divisor across all blocks. -/
theorem equalize_channel_spec (fft : List Cplx → List Cplx)
    (hfft : ∀ l, (fft l).length = l.length) (rx h : List Cplx) (n_fft nc : ℕ)
    (hnc : 0 < nc) (hsz : nc + 1 ≤ n_fft) :
    equalize_channel fft rx h n_fft nc =
      rx.mapIdx (fun i y =>
        cdiv y (((((fft (padTrunc h n_fft)).drop 1).take nc).map clampSmall).getD
          (i % nc) (0, 0))) := by
  have hH : (((((fft (padTrunc h n_fft)).drop 1).take nc).map clampSmall)).length = nc := by
    rw [List.length_map, List.length_take, List.length_drop, hfft, padTrunc_length]
    omega
  set Hcl := ((((fft (padTrunc h n_fft)).drop 1).take nc).map clampSmall) with hHcl
  set k := rx.length / nc + 1 with hk
  have hkn : rx.length ≤ k * nc := by
    have hdm := Nat.div_add_mod rx.length nc
    have hmod : rx.length % nc < nc := Nat.mod_lt _ hnc
    rw [hk, Nat.succ_mul, Nat.mul_comm]
    omega
  have htl : (tileList k Hcl).length = k * nc := by rw [tileList_length, hH]
  have htlen : ((tileList k Hcl).take rx.length).length = rx.length := by
    rw [List.length_take, htl]
    omega
  show List.zipWith cdiv rx ((tileList k Hcl).take rx.length) = _
  apply List.ext_getElem
  · rw [List.length_zipWith, htlen, List.length_mapIdx, Nat.min_self]
  · intro i h1 h2
    rw [List.length_zipWith, htlen, Nat.min_self] at h1
    have hti : i < ((tileList k Hcl).take rx.length).length := by omega
    have hti2 : i < (tileList k Hcl).length := by omega
    have him : i % Hcl.length < Hcl.length := by
      rw [hH]
      exact Nat.mod_lt _ hnc
    rw [List.getElem_zipWith, List.getElem_mapIdx, List.getElem_take,
      tileList_getElem k Hcl i hti2 him]
    rw [List.getD_eq_getElem Hcl (0, 0) (by rw [hH] at him ⊢; exact him)]
    simp only [hH]

/-- Witness for C7 with the identity in place of the library FFT. -/
theorem equalize_channel_spec_witness :
    (∀ l : List Cplx, (id l).length = l.length) ∧ (0 < 2) ∧ (2 + 1 ≤ 4) ∧
    equalize_channel id [(1, 0), (2, 0), (3, 0)] [(1, 0)] 4 2 =
      ([(1, 0), (2, 0), (3, 0)] : List Cplx).mapIdx (fun i y =>
        cdiv y (((((id (padTrunc [(1, 0)] 4)).drop 1).take 2).map clampSmall).getD
          (i % 2) (0, 0))) :=
  ⟨fun _ => rfl, by decide, by decide,
   equalize_channel_spec id (fun _ => rfl) [(1, 0), (2, 0), (3, 0)] [(1, 0)] 4 2
     (by decide) (by decide)⟩

theorem rayleighBaseTaps_length : rayleighBaseTaps.length = 10 := rfl

theorem rayleighBase_length (nt : ℕ) : (rayleighBase nt).length = nt := by
  unfold rayleighBase
  by_cases hc : nt ≤ rayleighBaseTaps.length
  · rw [if_pos hc, List.length_take]
    rw [rayleighBaseTaps_length] at hc ⊢
    omega
  · rw [if_neg hc, List.length_append, List.length_replicate]
    rw [rayleighBaseTaps_length] at hc ⊢
    omega

theorem sumSq_cons (x : ℝ) (l : List ℝ) : sumSq (x :: l) = x ^ 2 + sumSq l := by
  simp [sumSq]

theorem sumSq_nonneg (l : List ℝ) : 0 ≤ sumSq l := by
  unfold sumSq
  apply List.sum_nonneg
  intro x hx
  simp only [List.mem_map] at hx
  obtain ⟨a, _, rfl⟩ := hx
  positivity

theorem sumSq_map_div (l : List ℝ) (c : ℝ) :
    sumSq (l.map (fun x => x / c)) = sumSq l / c ^ 2 := by
  induction l with
  | nil => simp [sumSq]
  | cons a l ih =>
      rw [List.map_cons, sumSq_cons, sumSq_cons, ih, div_pow, div_add_div_same]

theorem rayleighBase_head (nt : ℕ) (h2 : 2 ≤ nt) :
    ∃ rest, rayleighBase nt = 1 :: rest := by
  unfold rayleighBase rayleighBaseTaps
  by_cases hc : nt ≤ ([1, 1/10, 1/10, 1/10, 1/10, 1/10, 1/10, 1/10, 1/2, 1/2] : List ℚ).length
  · rw [if_pos hc]
    obtain ⟨j, rfl⟩ : ∃ j, nt = j + 1 := ⟨nt - 1, by omega⟩
    exact ⟨_, rfl⟩
  · rw [if_neg hc]
    exact ⟨_, rfl⟩

/-- Claim C9: the impulse response built by `apply_rayleigh` has length
`num_taps`, unit energy (exactly, in real arithmetic), and is exactly
`[1]` for a single tap. -/
theorem apply_rayleigh_h_energy (nt : ℕ) (h1 : 1 ≤ nt) :
    (applyRayleighH nt).length = nt ∧ sumSq (applyRayleighH nt) = 1 ∧
    (nt = 1 → applyRayleighH nt = [1]) := by
  by_cases hone : nt = 1
  · subst hone
    refine ⟨rfl, ?_, fun _ => rfl⟩
    show sumSq [1] = 1
    rw [show ([1] : List ℝ) = 1 :: [] from rfl, sumSq_cons]
    norm_num [sumSq]
  · have h2 : 2 ≤ nt := by omega
    obtain ⟨rest, hbase⟩ := rayleighBase_head nt h2
    have hbpos : 0 < sumSq ((rayleighBase nt).map (fun q : ℚ => (q : ℝ))) := by
      rw [hbase, List.map_cons, sumSq_cons]
      have := sumSq_nonneg (rest.map (fun q : ℚ => (q : ℝ)))
      push_cast
      nlinarith
    have hsqrt : Real.sqrt (sumSq ((rayleighBase nt).map (fun q : ℚ => (q : ℝ)))) ^ 2
        = sumSq ((rayleighBase nt).map (fun q : ℚ => (q : ℝ))) :=
      Real.sq_sqrt (le_of_lt hbpos)
    unfold applyRayleighH
    rw [if_neg hone]
    refine ⟨?_, ?_, fun hc => absurd hc hone⟩
    · rw [List.length_map, List.length_map, rayleighBase_length]
    · rw [sumSq_map_div, hsqrt, div_self (ne_of_gt hbpos)]

/-- Witness for C9 at `num_taps = 3`. -/
theorem apply_rayleigh_h_energy_witness :
    (1 ≤ 3) ∧ ((applyRayleighH 3).length = 3 ∧ sumSq (applyRayleighH 3) = 1 ∧
      (3 = 1 → applyRayleighH 3 = [1])) :=
  ⟨by decide, apply_rayleigh_h_energy 3 (by decide)⟩

theorem uForState_le_one (s : ℕ) : uForState s ≤ 1 :=
  Nat.and_le_right

theorem branchDist_self (s u : ℕ) : branchDist s u (outTriple s u) = 0 := by
  simp [branchDist, outTriple, Nat.xor_self]

theorem viterbiTrellisFacts1 : ∀ s < 64, ∀ u ≤ 1,
    convNextState s u < 64 ∧ uForState (convNextState s u) = u ∧
    (pred0 (convNextState s u) = s ∨ pred1 (convNextState s u) = s) := by
  decide

theorem viterbiTrellisFacts2 : ∀ s < 64,
    pred0 s < 64 ∧ pred1 s < 64 ∧ pred0 s ≠ pred1 s ∧
    convNextState (pred0 s) (uForState s) = s ∧
    convNextState (pred1 s) (uForState s) = s := by
  decide

theorem branchDist_pos_of_ne : ∀ s < 64, ∀ u ≤ 1, ∀ v ≤ 1,
    u ≠ v → 1 ≤ branchDist s u (outTriple s v) := by
  decide

theorem flush_to_zero : ∀ s < 64,
    List.foldl convNextState s (List.replicate convMemory 0) = 0 := by
  decide

theorem foldl_convNextState_lt : ∀ (bs : List ℕ) (s : ℕ), s < 64 →
    List.foldl convNextState s bs < 64 := by
  intro bs
  induction bs with
  | nil => intro s hs; simpa using hs
  | cons b rest ih =>
      intro s hs
      rw [List.foldl_cons]
      apply ih
      have h : convNextState s b ≤ (1 <<< convMemory) - 1 := Nat.and_le_right
      have h64 : (1 <<< convMemory) - 1 = 63 := by decide
      omega

theorem triples_convEncodeFrom : ∀ (bs : List ℕ) (s : ℕ),
    triples (convEncodeFrom s bs) = encTriples s bs := by
  intro bs
  induction bs with
  | nil => intro s; rfl
  | cons b rest ih =>
      intro s
      show triples (convOutBits s b ++ convEncodeFrom (convNextState s b) rest)
        = outTriple s b :: encTriples (convNextState s b) rest
      rw [show convOutBits s b = [outBit s b 0, outBit s b 1, outBit s b 2] from rfl]
      show (outBit s b 0, outBit s b 1, outBit s b 2)
          :: triples (convEncodeFrom (convNextState s b) rest)
        = outTriple s b :: encTriples (convNextState s b) rest
      rw [ih]
      rfl

theorem encTriples_length : ∀ (bs : List ℕ) (s : ℕ),
    (encTriples s bs).length = bs.length := by
  intro bs
  induction bs with
  | nil => intro s; rfl
  | cons b rest ih =>
      intro s
      simp only [encTriples, List.length_cons, ih]

theorem tracebackAux_append : ∀ (A B : List (ℕ → ℕ)) (st : ℕ),
    tracebackAux st (A ++ B) =
      tracebackAux (List.foldl (fun x p => p x) st A) B ++ tracebackAux st A := by
  intro A
  induction A with
  | nil => intro B st; simp [tracebackAux]
  | cons p A ih =>
      intro B st
      show tracebackAux (p st) (A ++ B) ++ [uForState st]
        = tracebackAux (List.foldl (fun x p => p x) (p st) A) B
          ++ (tracebackAux (p st) A ++ [uForState st])
      rw [ih, List.append_assoc]

theorem viterbiStep_metric (M : ℕ → ℕ) (y : ℕ × ℕ × ℕ) (s : ℕ) :
    (viterbiStep M y).1 s =
      if M (pred1 s) + branchDist (pred1 s) (uForState s) y
          < M (pred0 s) + branchDist (pred0 s) (uForState s) y
      then M (pred1 s) + branchDist (pred1 s) (uForState s) y
      else M (pred0 s) + branchDist (pred0 s) (uForState s) y := rfl

theorem viterbiStep_prev (M : ℕ → ℕ) (y : ℕ × ℕ × ℕ) (s : ℕ) :
    (viterbiStep M y).2 s =
      if M (pred1 s) + branchDist (pred1 s) (uForState s) y
          < M (pred0 s) + branchDist (pred0 s) (uForState s) y
      then pred1 s else pred0 s := rfl

theorem viterbiStep_true_path (M : ℕ → ℕ) (σ b : ℕ) (hσ : σ < 64) (hb : b ≤ 1)
    (h0 : M σ = 0) (h1 : ∀ s, s < 64 → s ≠ σ → 1 ≤ M s) :
    (viterbiStep M (outTriple σ b)).1 (convNextState σ b) = 0 ∧
    (∀ s, s < 64 → s ≠ convNextState σ b → 1 ≤ (viterbiStep M (outTriple σ b)).1 s) ∧
    (viterbiStep M (outTriple σ b)).2 (convNextState σ b) = σ := by
  obtain ⟨hlt1, huf, hpred⟩ := viterbiTrellisFacts1 σ hσ b hb
  obtain ⟨hp0lt, hp1lt, hpne, hnp0, hnp1⟩ := viterbiTrellisFacts2 (convNextState σ b) hlt1
  have hmain : (viterbiStep M (outTriple σ b)).1 (convNextState σ b) = 0 ∧
      (viterbiStep M (outTriple σ b)).2 (convNextState σ b) = σ := by
    rcases hpred with hp | hp
    · -- the true predecessor entered with an even index: cand0 = 0 wins the tie
      have hc0 : M (pred0 (convNextState σ b))
          + branchDist (pred0 (convNextState σ b)) (uForState (convNextState σ b))
            (outTriple σ b) = 0 := by
        rw [hp, huf, h0, branchDist_self]
      rw [viterbiStep_metric, viterbiStep_prev, hc0]
      rw [if_neg (Nat.not_lt_zero _), if_neg (Nat.not_lt_zero _)]
      exact ⟨rfl, hp⟩
    · -- the true predecessor entered with an odd index: cand1 = 0 < cand0
      have hc1 : M (pred1 (convNextState σ b))
          + branchDist (pred1 (convNextState σ b)) (uForState (convNextState σ b))
            (outTriple σ b) = 0 := by
        rw [hp, huf, h0, branchDist_self]
      have hc0 : 1 ≤ M (pred0 (convNextState σ b))
          + branchDist (pred0 (convNextState σ b)) (uForState (convNextState σ b))
            (outTriple σ b) := by
        have hne : pred0 (convNextState σ b) ≠ σ := by
          intro hEq
          exact hpne (hEq.trans hp.symm)
        have := h1 (pred0 (convNextState σ b)) hp0lt hne
        omega
      rw [viterbiStep_metric, viterbiStep_prev, hc1, if_pos (by omega), if_pos (by omega)]
      exact ⟨rfl, hp⟩
  refine ⟨hmain.1, ?_, hmain.2⟩
  intro s hs hne
  obtain ⟨hq0lt, hq1lt, hqne, hqn0, hqn1⟩ := viterbiTrellisFacts2 s hs
  have hufs : uForState s ≤ 1 := uForState_le_one s
  have hcand : ∀ p, convNextState p (uForState s) = s → p < 64 →
      1 ≤ M p + branchDist p (uForState s) (outTriple σ b) := by
    intro p hnp hplt
    by_cases hpσ : p = σ
    · subst hpσ
      have hub : uForState s ≠ b := by
        intro hEq
        apply hne
        rw [← hnp, hEq]
      have := branchDist_pos_of_ne p hplt (uForState s) hufs b hb hub
      omega
    · have := h1 p hplt hpσ
      omega
  have hcc0 := hcand (pred0 s) hqn0 hq0lt
  have hcc1 := hcand (pred1 s) hqn1 hq1lt
  rw [viterbiStep_metric]
  split
  · exact hcc1
  · exact hcc0

theorem viterbi_forward_inv : ∀ (bs : List ℕ) (σ : ℕ) (M : ℕ → ℕ),
    σ < 64 → (∀ x ∈ bs, x ≤ 1) → M σ = 0 → (∀ s, s < 64 → s ≠ σ → 1 ≤ M s) →
    (viterbiForward M (encTriples σ bs)).1 (List.foldl convNextState σ bs) = 0 ∧
    (∀ s, s < 64 → s ≠ List.foldl convNextState σ bs →
      1 ≤ (viterbiForward M (encTriples σ bs)).1 s) ∧
    List.foldl (fun x p => p x) (List.foldl convNextState σ bs)
      (viterbiForward M (encTriples σ bs)).2.reverse = σ ∧
    tracebackAux (List.foldl convNextState σ bs)
      (viterbiForward M (encTriples σ bs)).2.reverse = bs := by
  intro bs
  induction bs with
  | nil =>
      intro σ M hσ _ h0 h1
      exact ⟨h0, h1, rfl, rfl⟩
  | cons b rest ih =>
      intro σ M hσ hbs h0 h1
      have hb : b ≤ 1 := hbs b (List.mem_cons_self b rest)
      have hrest : ∀ x ∈ rest, x ≤ 1 := fun x hx => hbs x (List.mem_cons_of_mem b hx)
      obtain ⟨hlt1, huf, _⟩ := viterbiTrellisFacts1 σ hσ b hb
      obtain ⟨hm0, hmge, hprev⟩ := viterbiStep_true_path M σ b hσ hb h0 h1
      obtain ⟨ih0, ih1, ihwalk, ihtb⟩ :=
        ih (convNextState σ b) (viterbiStep M (outTriple σ b)).1 hlt1 hrest hm0 hmge
      rw [show encTriples σ (b :: rest)
            = outTriple σ b :: encTriples (convNextState σ b) rest from rfl,
          show List.foldl convNextState σ (b :: rest)
            = List.foldl convNextState (convNextState σ b) rest from rfl,
          show viterbiForward M (outTriple σ b :: encTriples (convNextState σ b) rest)
            = ((viterbiForward (viterbiStep M (outTriple σ b)).1
                  (encTriples (convNextState σ b) rest)).1,
               (viterbiStep M (outTriple σ b)).2
                 :: (viterbiForward (viterbiStep M (outTriple σ b)).1
                      (encTriples (convNextState σ b) rest)).2) from rfl]
      refine ⟨ih0, ih1, ?_, ?_⟩
      · show List.foldl (fun x p => p x) _
            ((viterbiStep M (outTriple σ b)).2
              :: (viterbiForward (viterbiStep M (outTriple σ b)).1
                   (encTriples (convNextState σ b) rest)).2).reverse = σ
        rw [List.reverse_cons, List.foldl_append, ihwalk]
        show (viterbiStep M (outTriple σ b)).2 (convNextState σ b) = σ
        exact hprev
      · show tracebackAux _
            ((viterbiStep M (outTriple σ b)).2
              :: (viterbiForward (viterbiStep M (outTriple σ b)).1
                   (encTriples (convNextState σ b) rest)).2).reverse = b :: rest
        rw [List.reverse_cons, tracebackAux_append, ihwalk, ihtb]
        show ([] ++ [uForState (convNextState σ b)]) ++ rest = b :: rest
        rw [huf]
        simp

/-- Claim C1: over a noiseless channel, the hard-decision Viterbi decoder
exactly inverts the terminated encoder: for every 0/1 bit list `b`,
`conv_decode_terminated (conv_encode b terminate tail_biting=false) drop_tail=true`
returns `b`.  The proof tracks the invariant that after each forward step
the true-path state is the unique state of metric 0 (any competing branch
differs from the transmitted triple in the first coded bit, since
generator 133 taps the current input), so the recorded predecessors trace
the transmitted path and the MSB of each visited state is the input bit. -/
theorem conv_decode_inverts_encode (b : List ℕ) (hb : ∀ x ∈ b, x ≤ 1) :
    conv_decode_terminated (conv_encode b true false) true = b := by
  have henc : conv_encode b true false
      = convEncodeFrom 0 (b ++ List.replicate convMemory 0) := by
    unfold conv_encode convInitState
    norm_num
  have hL : ∀ x ∈ b ++ List.replicate convMemory 0, x ≤ 1 := by
    intro x hx
    rcases List.mem_append.mp hx with h | h
    · exact hb x h
    · rw [List.eq_of_mem_replicate h]
      omega
  have hend : List.foldl convNextState 0 (b ++ List.replicate convMemory 0) = 0 := by
    rw [List.foldl_append]
    exact flush_to_zero _ (foldl_convNextState_lt b 0 (by omega))
  have hM1 : ∀ s, s < 64 → s ≠ 0 → 1 ≤ viterbiInitMetrics s := by
    intro s _ hs
    unfold viterbiInitMetrics INF
    rw [if_neg hs]
    omega
  obtain ⟨_, _, _, htb⟩ := viterbi_forward_inv (b ++ List.replicate convMemory 0) 0
    viterbiInitMetrics (by omega) hL rfl hM1
  rw [hend] at htb
  have hc : convMemory ≤ b.length + convMemory := Nat.le_add_left _ _
  unfold conv_decode_terminated
  simp only [henc, triples_convEncodeFrom, htb, encTriples_length, List.length_append,
    List.length_replicate, hc, and_true, eq_self_iff_true, if_true, Nat.add_sub_cancel,
    List.take_left]

/-- Witness for C1 at a concrete bit list. -/
theorem conv_decode_inverts_encode_witness :
    (∀ x ∈ ([1, 0, 1] : List ℕ), x ≤ 1) ∧
    conv_decode_terminated (conv_encode [1, 0, 1] true false) true = [1, 0, 1] :=
  ⟨by decide, conv_decode_inverts_encode [1, 0, 1] (by decide)⟩
